import Mathlib

/-!
Verification of the task-tracker CLI (src/src/task_tracker/main.py).

The program keeps an ordered list of task records persisted as a JSON
array.  Each command loads the list, applies one pure operation, and
saves the list back when it mutated it.  We embed the task record, the
persisted-file states, and the four commands (`add`, `list`, `done`,
`delete`) as Lean functions, and prove the spec's properties about them.
-/

namespace TaskTracker

/-- A task record, as stored in `tasks.json`: the five keys written by
`cmd_add`.  `done_at` is `none` for the JSON `null`. -/
structure Task where
  id : Int
  title : String
  status : String
  created_at : String
  done_at : Option String
  deriving Repr, DecidableEq

/-- A JSON value, the shape of data `json.load` can return. -/
inductive Json where
  | null : Json
  | bool (b : Bool) : Json
  | int (n : Int) : Json
  | str (s : String) : Json
  | arr (xs : List Json) : Json
  | obj (kvs : List (String × Json)) : Json
  deriving Repr

/-- The possible states of the persisted file `tasks.json`:
missing, present but not well-formed JSON, or well-formed JSON. -/
inductive FileState where
  | absent : FileState
  | malformed : FileState
  | wellFormed (j : Json) : FileState
  deriving Repr

/-- `_load`: returns `[]` when the file is absent, when `json.load`
raises `JSONDecodeError`, or when the parsed value is not a list;
otherwise the parsed list's elements, unvalidated. -/
def _load : FileState → List Json
  | .absent => []
  | .malformed => []
  | .wellFormed (.arr xs) => xs
  | .wellFormed _ => []

/-- Serialization of one task record as the JSON object `json.dump`
writes for the dict built in `cmd_add` / mutated in `cmd_done`. -/
def Task.toJson (t : Task) : Json :=
  .obj [("id", .int t.id), ("title", .str t.title), ("status", .str t.status),
        ("created_at", .str t.created_at),
        ("done_at", match t.done_at with | some s => .str s | none => .null)]

/-- `_save`: overwrites the file with the JSON array of the records. -/
def _save (tasks : List Task) : FileState :=
  .wellFormed (.arr (tasks.map Task.toJson))

/-- Field lookup on a JSON object, as `t["id"]` etc. read the dict. -/
def Json.getField : Json → String → Option Json
  | .obj kvs, k => kvs.lookup k
  | _, _ => none

/-- Reads a task record back from a JSON object by the five keys the
commands access (`t["id"]`, `t["title"]`, `t["status"]`, `t["created_at"]`,
`t["done_at"]`); `none` when the shape does not match a record. -/
def Task.ofJson (j : Json) : Option Task :=
  match j.getField "id", j.getField "title", j.getField "status",
        j.getField "created_at", j.getField "done_at" with
  | some (.int i), some (.str ti), some (.str st), some (.str ca), some da =>
    match da with
    | .null => some ⟨i, ti, st, ca, none⟩
    | .str s => some ⟨i, ti, st, ca, some s⟩
    | _ => none
  | _, _, _, _, _ => none

/-- The task records among the loaded JSON elements. -/
def decodeStore (js : List Json) : List Task :=
  js.filterMap Task.ofJson

/-- `_next_id`: `max((t["id"] for t in tasks), default=0) + 1`. -/
def _next_id (tasks : List Task) : Int :=
  ((tasks.map Task.id).max?.getD 0) + 1

/-- Result of one mutating command: the persisted store state after the
command, whether `_save` was called, and the line printed. -/
structure CmdResult where
  tasks : List Task
  saved : Bool
  msg : String
  deriving Repr, DecidableEq

/-- The not-found line printed by `cmd_done` and `cmd_delete`. -/
def notFoundMsg (tid : Int) : String :=
  "❌ no task with id #" ++ toString tid ++ " found."

/-- The line printed by `cmd_done` on an already-done task. -/
def alreadyMsg (tid : Int) : String :=
  "ℹ️ task #" ++ toString tid ++ " already done."

/-- The confirmation line printed by `cmd_done` on an open task. -/
def completedMsg (tid : Int) (title : String) : String :=
  "✅ completed #" ++ toString tid ++ ": " ++ title

/-- The confirmation line printed by `cmd_delete`. -/
def deletedMsg (tid : Int) : String :=
  "🗑️ deleted task #" ++ toString tid

/-- The confirmation line printed by `cmd_add`. -/
def addedMsg (i : Int) (title : String) : String :=
  "✅ added #" ++ toString i ++ ": " ++ title

/-- The line printed by `cmd_list` when the selected view is empty. -/
def nothingMsg : String := "🟡 no tasks to show."

/-- `cmd_add`: allocate the next id, append an open task, save. -/
def cmd_add (title now : String) (tasks : List Task) : CmdResult :=
  let new_task : Task :=
    ⟨_next_id tasks, title.trim, "open", now, none⟩
  ⟨tasks ++ [new_task], true, addedMsg new_task.id new_task.title⟩

/-- The `--done` / `--all` flags of `list` (mutually exclusive). -/
structure ListArgs where
  all : Bool
  done : Bool
  deriving Repr, DecidableEq

/-- One output line of `cmd_list` for a task. -/
def taskLine (t : Task) : String :=
  (if t.status == "done" then "✅" else "📝") ++ " #" ++
    (let s := toString t.id
     (if s.length < 3 then String.mk (List.replicate (3 - s.length) ' ') else "") ++ s)
    ++ "  " ++ t.title

/-- The subset of the store `cmd_list` selects for the given flags. -/
def listView (args : ListArgs) (tasks : List Task) : List Task :=
  if args.all then tasks
  else if args.done then tasks.filter (fun t => t.status == "done")
  else tasks.filter (fun t => t.status == "open")

/-- `cmd_list`: the selected view and the printed lines (read-only). -/
def cmd_list (args : ListArgs) (tasks : List Task) : List Task × List String :=
  let view := listView args tasks
  if view.isEmpty then (view, [nothingMsg])
  else (view, view.map taskLine)

/-- The in-place mutation `cmd_done` performs on the matched task:
`t["status"] = "done"; t["done_at"] = _now_iso()`. -/
def markDone (now : String) (t : Task) : Task :=
  { t with status := "done", done_at := some now }

/-- `cmd_done`: scan linearly for the first task with the given id;
an already-done task is reported without mutation or save, an open one
is marked done with `done_at = now` and saved; otherwise not-found. -/
def cmd_done (tid : Int) (now : String) : List Task → CmdResult
  | [] => ⟨[], false, notFoundMsg tid⟩
  | t :: rest =>
    if t.id == tid then
      if t.status == "done" then
        ⟨t :: rest, false, alreadyMsg tid⟩
      else
        let u : Task := markDone now t
        ⟨u :: rest, true, completedMsg tid u.title⟩
    else
      let r := cmd_done tid now rest
      ⟨t :: r.tasks, r.saved, r.msg⟩

/-- `cmd_delete`: keep the tasks whose id differs; if the length is
unchanged print not-found without saving, else save the reduced list. -/
def cmd_delete (tid : Int) (tasks : List Task) : CmdResult :=
  let tasks' := tasks.filter (fun t => t.id != tid)
  if tasks'.length == tasks.length then
    ⟨tasks, false, notFoundMsg tid⟩
  else
    ⟨tasks', true, deletedMsg tid⟩

/-- One CLI invocation's command with its parsed arguments; `now` is the
timestamp `_now_iso()` would produce during that invocation. -/
inductive Cmd where
  | add (title now : String) : Cmd
  | list (args : ListArgs) : Cmd
  | done (tid : Int) (now : String) : Cmd
  | delete (tid : Int) : Cmd
  deriving Repr, DecidableEq

/-- The effect of one invocation on the persisted store. -/
def applyCmd : Cmd → List Task → CmdResult
  | .add title now, ts => cmd_add title now ts
  | .list args, ts =>
    ⟨ts, false, String.intercalate "\n" (cmd_list args ts).2⟩
  | .done tid now, ts => cmd_done tid now ts
  | .delete tid, ts => cmd_delete tid ts

/-- Run a sequence of invocations from a store state. -/
def runCmds : List Cmd → List Task → List Task
  | [], ts => ts
  | c :: cs, ts => runCmds cs (applyCmd c ts).tasks

/-- The ids assigned by the `add` commands of a run, in order. -/
def assignedIds : List Cmd → List Task → List Int
  | [], _ => []
  | c :: cs, ts =>
    let rest := assignedIds cs (applyCmd c ts).tasks
    match c with
    | .add _ _ => _next_id ts :: rest
    | _ => rest

/-- The store invariant of the spec's data model that `done` witnesses:
a done task carries a `done_at` timestamp, an open task carries none. -/
def WFtask (t : Task) : Prop :=
  (t.status = "done" → t.done_at.isSome) ∧ (t.status = "open" → t.done_at = none)

instance : DecidablePred WFtask := fun t => by
  unfold WFtask; infer_instance

/-- A store is well-formed when each of its tasks is. -/
def WFstore (ts : List Task) : Prop := ∀ t ∈ ts, WFtask t

instance : DecidablePred WFstore := fun ts => by
  unfold WFstore; infer_instance

/-! ### Helper lemmas about `max?` and `_next_id` -/

lemma max?_cons_eq (a : Int) (as : List Int) :
    (a :: as).max? = some (as.foldl max a) := rfl

/-- A nonempty integer list has a maximum: a member bounding every element. -/
lemma max?_spec (l : List Int) (h : l ≠ []) :
    ∃ m, l.max? = some m ∧ m ∈ l ∧ ∀ x ∈ l, x ≤ m := by
  obtain ⟨a, as, rfl⟩ := List.exists_cons_of_ne_nil h
  have hm : (a :: as).max? = some (as.foldl max a) := max?_cons_eq a as
  refine ⟨as.foldl max a, hm, List.max?_mem max_choice hm, ?_⟩
  intro x hx
  exact (List.max?_le_iff (fun a b c => max_le_iff) hm).1 le_rfl x hx

/-- Every id in the store is strictly below the next allocated id. -/
lemma id_lt_next_id (ts : List Task) (t : Task) (ht : t ∈ ts) :
    t.id < _next_id ts := by
  have hne : ts.map Task.id ≠ [] := by
    simp only [ne_eq, List.map_eq_nil_iff]
    rintro rfl; exact absurd ht (List.not_mem_nil t)
  obtain ⟨m, hm, _, hb⟩ := max?_spec _ hne
  have hle : t.id ≤ m := hb _ (List.mem_map_of_mem _ ht)
  simp only [_next_id, hm, Option.getD_some]
  omega

lemma foldl_max_of_le (xs : List Int) (y : Int) :
    ∀ a : Int, a ≤ y → (∀ x ∈ xs, x ≤ y) → (xs ++ [y]).foldl max a = y := by
  induction xs with
  | nil => intro a ha _; simpa using max_eq_right ha
  | cons x xs ih =>
    intro a ha h
    simp only [List.cons_append, List.foldl_cons]
    exact ih (max a x) (max_le ha (h x (by simp)))
      (fun u hu => h u (by simp [hu]))

/-- Appending an upper bound makes it the maximum. -/
lemma max?_append_big (xs : List Int) (y : Int) (h : ∀ x ∈ xs, x ≤ y) :
    (xs ++ [y]).max? = some y := by
  cases xs with
  | nil => rfl
  | cons a as =>
    have : ((a :: as) ++ [y]).max? = some ((as ++ [y]).foldl max a) :=
      max?_cons_eq a (as ++ [y])
    rw [this, foldl_max_of_le as y a (h a (by simp)) (fun u hu => h u (by simp [hu]))]

/-- `add` advances the next id by exactly one. -/
lemma next_id_cmd_add (title now : String) (ts : List Task) :
    _next_id (cmd_add title now ts).tasks = _next_id ts + 1 := by
  have hbound : ∀ x ∈ ts.map Task.id, x ≤ _next_id ts := by
    intro x hx
    obtain ⟨t, ht, rfl⟩ := List.mem_map.1 hx
    exact le_of_lt (id_lt_next_id ts t ht)
  have : (cmd_add title now ts).tasks.map Task.id
      = ts.map Task.id ++ [_next_id ts] := by
    simp [cmd_add]
  rw [_next_id, this, max?_append_big _ _ hbound, Option.getD_some]

/-! ### Helper lemmas about `cmd_done` -/

/-- When no task has the id, `cmd_done` changes and saves nothing. -/
lemma cmd_done_not_found (tid : Int) (now : String) (ts : List Task)
    (h : ∀ t ∈ ts, t.id ≠ tid) :
    cmd_done tid now ts = ⟨ts, false, notFoundMsg tid⟩ := by
  induction ts with
  | nil => rfl
  | cons t rest ih =>
    have ht : (t.id == tid) = false := beq_eq_false_iff_ne.2 (h t (by simp))
    simp [cmd_done, ht, ih (fun u hu => h u (by simp [hu]))]

/-- When the first task with the id is already done, `cmd_done` changes
and saves nothing. -/
lemma cmd_done_found_already (tid : Int) (now : String)
    (pre : List Task) (t : Task) (post : List Task)
    (hpre : ∀ u ∈ pre, u.id ≠ tid) (hid : t.id = tid) (hst : t.status = "done") :
    cmd_done tid now (pre ++ t :: post) = ⟨pre ++ t :: post, false, alreadyMsg tid⟩ := by
  induction pre with
  | nil => simp [cmd_done, hid, hst]
  | cons u pre ih =>
    have hu : (u.id == tid) = false := beq_eq_false_iff_ne.2 (hpre u (by simp))
    simp [cmd_done, hu, ih (fun v hv => hpre v (by simp [hv]))]

/-- When the first task with the id is not done, `cmd_done` marks it
done in place and saves. -/
lemma cmd_done_found_not_done (tid : Int) (now : String)
    (pre : List Task) (t : Task) (post : List Task)
    (hpre : ∀ u ∈ pre, u.id ≠ tid) (hid : t.id = tid) (hst : t.status ≠ "done") :
    cmd_done tid now (pre ++ t :: post)
      = ⟨pre ++ markDone now t :: post, true, completedMsg tid t.title⟩ := by
  induction pre with
  | nil =>
    have hst' : (t.status == "done") = false := beq_eq_false_iff_ne.2 hst
    simp [cmd_done, hid, hst', markDone]
  | cons u pre ih =>
    have hu : (u.id == tid) = false := beq_eq_false_iff_ne.2 (hpre u (by simp))
    simp [cmd_done, hu, ih (fun v hv => hpre v (by simp [hv]))]

/-- Either no task has the id, or the store splits at the first task
with the id. -/
lemma first_match_decomp (tid : Int) (ts : List Task) :
    (∀ t ∈ ts, t.id ≠ tid) ∨
    ∃ pre t post, ts = pre ++ t :: post ∧ t.id = tid ∧ ∀ u ∈ pre, u.id ≠ tid := by
  induction ts with
  | nil => exact Or.inl (by simp)
  | cons t rest ih =>
    by_cases ht : t.id = tid
    · exact Or.inr ⟨[], t, rest, by simp, ht, by simp⟩
    · cases ih with
      | inl h =>
        refine Or.inl ?_
        intro u hu
        rcases List.mem_cons.1 hu with rfl | hu
        · exact ht
        · exact h u hu
      | inr h =>
        obtain ⟨pre, x, post, rfl, hx, hpre⟩ := h
        refine Or.inr ⟨t :: pre, x, post, rfl, hx, ?_⟩
        intro u hu
        rcases List.mem_cons.1 hu with rfl | hu
        · exact ht
        · exact hpre u hu

/-- `cmd_done` preserves the store invariant. -/
lemma cmd_done_WF (tid : Int) (now : String) (ts : List Task)
    (h : WFstore ts) : WFstore (cmd_done tid now ts).tasks := by
  induction ts with
  | nil => intro t ht; cases ht
  | cons t rest ih =>
    by_cases hid : t.id = tid
    · by_cases hst : t.status = "done"
      · simpa [cmd_done, hid, hst] using h
      · have hst' : (t.status == "done") = false := beq_eq_false_iff_ne.2 hst
        intro u hu
        simp only [cmd_done, hid, beq_self_eq_true, if_true, hst', if_false] at hu
        rcases List.mem_cons.1 hu with rfl | hu
        · exact ⟨fun _ => rfl, fun hop => absurd hop (by simp [markDone])⟩
        · exact h u (by simp [hu])
    · have hid' : (t.id == tid) = false := beq_eq_false_iff_ne.2 hid
      intro u hu
      simp only [cmd_done, hid', if_false] at hu
      rcases List.mem_cons.1 hu with rfl | hu
      · exact h u (by simp)
      · exact ih (fun v hv => h v (by simp [hv])) u hu

/-- `cmd_done` never touches a task that is already done: the exact
record stays in the store. -/
lemma cmd_done_keeps_done (tid : Int) (now : String) (ts : List Task) :
    ∀ t0 ∈ ts, t0.status = "done" → t0 ∈ (cmd_done tid now ts).tasks := by
  induction ts with
  | nil => intro t0 ht0; cases ht0
  | cons t rest ih =>
    intro t0 ht0 hst0
    by_cases hid : t.id = tid
    · by_cases hst : t.status = "done"
      · simpa [cmd_done, hid, hst] using ht0
      · have hst' : (t.status == "done") = false := beq_eq_false_iff_ne.2 hst
        simp only [cmd_done, hid, beq_self_eq_true, if_true, hst', if_false]
        rcases List.mem_cons.1 ht0 with rfl | h0
        · exact absurd hst0 hst
        · exact List.mem_cons_of_mem _ h0
    · have hid' : (t.id == tid) = false := beq_eq_false_iff_ne.2 hid
      simp only [cmd_done, hid', if_false]
      rcases List.mem_cons.1 ht0 with rfl | h0
      · exact List.mem_cons_self _ _
      · exact List.mem_cons_of_mem _ (ih t0 h0 hst0)

/-! ### Helper lemmas about `cmd_delete` and `cmd_list` -/

/-- The store after `cmd_delete` is always the filtered store (when the
id is absent the filter removes nothing). -/
lemma cmd_delete_tasks_eq_filter (k : Int) (ts : List Task) :
    (cmd_delete k ts).tasks = ts.filter (fun t => t.id != k) := by
  unfold cmd_delete
  by_cases h : (ts.filter (fun t => t.id != k)).length = ts.length
  · have heq : ts.filter (fun t => t.id != k) = ts :=
      (List.filter_sublist ts).eq_of_length h
    simp [h, heq]
  · simp [h]

/-- The view is the first component of `cmd_list`, in both branches. -/
lemma cmd_list_fst (args : ListArgs) (ts : List Task) :
    (cmd_list args ts).1 = listView args ts := by
  cases h : (listView args ts).isEmpty <;> simp [cmd_list, h]

/-- Valid statuses make the open and done filters a partition in count. -/
lemma filter_open_done_length (ts : List Task)
    (h : ∀ t ∈ ts, t.status = "open" ∨ t.status = "done") :
    (ts.filter (fun t => t.status == "open")).length
      + (ts.filter (fun t => t.status == "done")).length = ts.length := by
  induction ts with
  | nil => rfl
  | cons t rest ih =>
    have hr := ih (fun u hu => h u (by simp [hu]))
    rcases h t (by simp) with hst | hst <;>
      simp [List.filter_cons, hst] <;> omega

/-- A member failing the predicate makes the filter strictly shorter. -/
lemma filter_length_lt_of_mem_not {α : Type} (p : α → Bool) (l : List α)
    (a : α) (ha : a ∈ l) (hp : p a = false) :
    (l.filter p).length < l.length := by
  rcases Nat.lt_or_ge (l.filter p).length l.length with h | h
  · exact h
  · exfalso
    have hle : (l.filter p).length ≤ l.length := (List.filter_sublist l).length_le
    have heq : l.filter p = l :=
      (List.filter_sublist l).eq_of_length (Nat.le_antisymm hle h)
    have : p a = true := List.of_mem_filter (show a ∈ l.filter p by rw [heq]; exact ha)
    rw [hp] at this
    cases this

/-! ### The claims -/

/-- C2: `done(id)` behaves exactly by cases.  If the first task holding
the id is already done, the store is unchanged, nothing is saved, and
only the informational message is printed; if it is open, exactly that
task gets `status = "done"` and `done_at = now` and the store is saved
with a confirmation message; if no task holds the id, the store is
unchanged, nothing is saved, and the not-found message names the id. -/
theorem c2_done_cases (ts : List Task) (tid : Int) (now : String) :
    ((∀ t ∈ ts, t.id ≠ tid) →
      cmd_done tid now ts = ⟨ts, false, notFoundMsg tid⟩) ∧
    (∀ pre t post, ts = pre ++ t :: post → (∀ u ∈ pre, u.id ≠ tid) →
      t.id = tid →
      ((t.status = "done" →
         cmd_done tid now ts = ⟨ts, false, alreadyMsg tid⟩) ∧
       (t.status = "open" →
         cmd_done tid now ts
           = ⟨pre ++ markDone now t :: post, true, completedMsg tid t.title⟩))) := by
  refine ⟨cmd_done_not_found tid now ts, ?_⟩
  rintro pre t post rfl hpre hid
  refine ⟨fun hst => cmd_done_found_already tid now pre t post hpre hid hst, ?_⟩
  intro hst
  refine cmd_done_found_not_done tid now pre t post hpre hid ?_
  rw [hst]
  decide

/-- Witness for C2: completing the single open task with id 1 marks it
done, records the timestamp, and saves. -/
theorem c2_done_cases_witness :
    cmd_done 1 "T2" [⟨1, "A", "open", "T1", none⟩]
      = ⟨[⟨1, "A", "done", "T1", some "T2"⟩], true, completedMsg 1 "A"⟩ := by
  have h := (c2_done_cases [⟨1, "A", "open", "T1", none⟩] 1 "T2").2
      [] ⟨1, "A", "open", "T1", none⟩ [] rfl (by simp) rfl
  rw [h.2 rfl]
  rfl

/-- C7: running `done(id)` twice in succession leaves the same final
store as running it once, and the second run never saves. -/
theorem c7_done_idempotent (ts : List Task) (tid : Int) (now1 now2 : String) :
    (cmd_done tid now2 (cmd_done tid now1 ts).tasks).tasks
        = (cmd_done tid now1 ts).tasks ∧
    (cmd_done tid now2 (cmd_done tid now1 ts).tasks).saved = false := by
  induction ts with
  | nil => exact ⟨rfl, rfl⟩
  | cons t rest ih =>
    by_cases hid : t.id = tid
    · by_cases hst : t.status = "done"
      · constructor <;> simp [cmd_done, hid, hst]
      · have hst' : (t.status == "done") = false := beq_eq_false_iff_ne.2 hst
        constructor <;> simp [cmd_done, hid, hst', markDone]
    · have hid' : (t.id == tid) = false := beq_eq_false_iff_ne.2 hid
      constructor <;> simp [cmd_done, hid', ih.1, ih.2]

/-- C3: `delete(k)` leaves exactly the tasks whose id differs from `k`,
in their original order with all fields intact; when some task has id
`k` the reduced store is saved with a confirmation, and when none has it
the store is untouched, not saved, and the not-found message is printed. -/
theorem c3_delete_exact (ts : List Task) (k : Int) :
    (cmd_delete k ts).tasks = ts.filter (fun t => t.id != k) ∧
    (cmd_delete k ts).tasks.Sublist ts ∧
    (∀ t ∈ ts, t.id ≠ k → t ∈ (cmd_delete k ts).tasks) ∧
    (∀ t ∈ (cmd_delete k ts).tasks, t.id ≠ k) ∧
    ((∃ t ∈ ts, t.id = k) →
      cmd_delete k ts = ⟨ts.filter (fun t => t.id != k), true, deletedMsg k⟩) ∧
    ((∀ t ∈ ts, t.id ≠ k) →
      cmd_delete k ts = ⟨ts, false, notFoundMsg k⟩) := by
  have hf := cmd_delete_tasks_eq_filter k ts
  refine ⟨hf, ?_, ?_, ?_, ?_, ?_⟩
  · rw [hf]
    exact List.filter_sublist ts
  · intro t ht hne
    rw [hf]
    exact List.mem_filter.2 ⟨ht, by simp [hne]⟩
  · intro t ht
    rw [hf] at ht
    simpa using (List.mem_filter.1 ht).2
  · rintro ⟨t, ht, htk⟩
    have hlt := filter_length_lt_of_mem_not (fun u => u.id != k) ts t ht (by simp [htk])
    have hc : ((ts.filter (fun u => u.id != k)).length == ts.length) = false := by
      simp [Nat.ne_of_lt hlt]
    simp [cmd_delete, hc]
  · intro h
    have heq : ts.filter (fun t => t.id != k) = ts :=
      List.filter_eq_self.2 (fun a ha => by simp [h a ha])
    simp [cmd_delete, heq]

/-- Witness for C3: deleting id 1 from a two-task store removes exactly
the task with id 1 and saves. -/
theorem c3_delete_exact_witness :
    cmd_delete 1 [⟨1, "A", "open", "T1", none⟩, ⟨2, "B", "open", "T2", none⟩]
      = ⟨[⟨2, "B", "open", "T2", none⟩], true, deletedMsg 1⟩ := by
  have h := (c3_delete_exact
      [⟨1, "A", "open", "T1", none⟩, ⟨2, "B", "open", "T2", none⟩] 1).2.2.2.2.1
      ⟨⟨1, "A", "open", "T1", none⟩, by simp, rfl⟩
  rw [h]
  rfl

/-- C4: the `--all` view is the whole store; it equals, as a set, the
union of the default (open) view and the `--done` view; both filtered
views keep the original order (sublists), are disjoint, and their sizes
add up to the `--all` view with no duplication; distinct ids make the
`--all` view duplicate-free. -/
theorem c4_list_all_union (ts : List Task)
    (h : ∀ t ∈ ts, t.status = "open" ∨ t.status = "done") :
    (cmd_list ⟨true, false⟩ ts).1 = ts ∧
    (∀ t, t ∈ (cmd_list ⟨true, false⟩ ts).1 ↔
      t ∈ (cmd_list ⟨false, false⟩ ts).1 ∨ t ∈ (cmd_list ⟨false, true⟩ ts).1) ∧
    (cmd_list ⟨false, false⟩ ts).1.Sublist ts ∧
    (cmd_list ⟨false, true⟩ ts).1.Sublist ts ∧
    (cmd_list ⟨false, false⟩ ts).1.Disjoint (cmd_list ⟨false, true⟩ ts).1 ∧
    (cmd_list ⟨true, false⟩ ts).1.length
      = (cmd_list ⟨false, false⟩ ts).1.length
        + (cmd_list ⟨false, true⟩ ts).1.length ∧
    ((ts.map Task.id).Nodup → (cmd_list ⟨true, false⟩ ts).1.Nodup) := by
  have hall : (cmd_list ⟨true, false⟩ ts).1 = ts := by
    rw [cmd_list_fst]; rfl
  have hopen : (cmd_list ⟨false, false⟩ ts).1
      = ts.filter (fun t => t.status == "open") := by
    rw [cmd_list_fst]; rfl
  have hdone : (cmd_list ⟨false, true⟩ ts).1
      = ts.filter (fun t => t.status == "done") := by
    rw [cmd_list_fst]; rfl
  rw [hall, hopen, hdone]
  refine ⟨rfl, ?_, List.filter_sublist ts, List.filter_sublist ts, ?_, ?_, ?_⟩
  · intro t
    constructor
    · intro ht
      rcases h t ht with hst | hst
      · exact Or.inl (List.mem_filter.2 ⟨ht, by simp [hst]⟩)
      · exact Or.inr (List.mem_filter.2 ⟨ht, by simp [hst]⟩)
    · rintro (ht | ht) <;> exact List.mem_of_mem_filter ht
  · intro a haO haD
    have h1 : a.status = "open" := by simpa using (List.mem_filter.1 haO).2
    have h2 : a.status = "done" := by simpa using (List.mem_filter.1 haD).2
    rw [h1] at h2
    exact absurd h2 (by decide)
  · exact (filter_open_done_length ts h).symm
  · intro hid
    exact List.Nodup.of_map _ hid

/-- Witness for C4: on a concrete two-task store the `--all` view is the
whole store. -/
theorem c4_list_all_union_witness :
    (cmd_list ⟨true, false⟩
      [⟨1, "A", "open", "T1", none⟩, ⟨2, "B", "done", "T2", some "T3"⟩]).1
      = [⟨1, "A", "open", "T1", none⟩, ⟨2, "B", "done", "T2", some "T3"⟩] :=
  (c4_list_all_union
    [⟨1, "A", "open", "T1", none⟩, ⟨2, "B", "done", "T2", some "T3"⟩]
    (by decide)).1

/-- C5: `_load` returns the empty sequence on a missing file, on
unparseable content, and on well-formed content that is not a list; it
returns the parsed elements otherwise; hence on an invalid file
`list --all` prints the "nothing to show" line. -/
theorem c5_load_tolerant :
    _load FileState.absent = [] ∧
    _load FileState.malformed = [] ∧
    (∀ j : Json, (∀ xs, j ≠ Json.arr xs) →
      _load (FileState.wellFormed j) = []) ∧
    (∀ xs, _load (FileState.wellFormed (Json.arr xs)) = xs) ∧
    (cmd_list ⟨true, false⟩ (decodeStore (_load FileState.malformed))).2
      = [nothingMsg] := by
  refine ⟨rfl, rfl, ?_, fun xs => rfl, rfl⟩
  intro j hj
  cases j <;> first | rfl | exact absurd rfl (hj _)

/-- Witness for C5: a well-formed non-list file (the number 3) loads as
the empty sequence. -/
theorem c5_load_tolerant_witness :
    _load (FileState.wellFormed (Json.int 3)) = [] :=
  c5_load_tolerant.2.2.1 (Json.int 3) (fun _ h => Json.noConfusion h)

/-- C6: `_next_id` returns 1 on the empty sequence and one plus the
maximum existing id otherwise. -/
theorem c6_next_id_alloc :
    _next_id [] = 1 ∧
    (∀ ts : List Task, ts ≠ [] →
      ∃ m, (ts.map Task.id).max? = some m ∧ m ∈ ts.map Task.id ∧
        (∀ i ∈ ts.map Task.id, i ≤ m) ∧ _next_id ts = 1 + m) := by
  refine ⟨rfl, ?_⟩
  intro ts hts
  have hne : ts.map Task.id ≠ [] := by
    simp only [ne_eq, List.map_eq_nil_iff]
    exact hts
  obtain ⟨m, hm, hmem, hb⟩ := max?_spec _ hne
  refine ⟨m, hm, hmem, hb, ?_⟩
  simp only [_next_id, hm, Option.getD_some]
  omega

/-- Witness for C6: on a store with ids 5 and 2 the maximum is found and
the next id is 1 + 5. -/
theorem c6_next_id_alloc_witness :
    ∃ m, (([⟨5, "A", "open", "T1", none⟩, ⟨2, "B", "open", "T2", none⟩]
        : List Task).map Task.id).max? = some m ∧
      m ∈ ([⟨5, "A", "open", "T1", none⟩, ⟨2, "B", "open", "T2", none⟩]
        : List Task).map Task.id ∧
      (∀ i ∈ ([⟨5, "A", "open", "T1", none⟩, ⟨2, "B", "open", "T2", none⟩]
        : List Task).map Task.id, i ≤ m) ∧
      _next_id [⟨5, "A", "open", "T1", none⟩, ⟨2, "B", "open", "T2", none⟩]
        = 1 + m :=
  c6_next_id_alloc.2
    [⟨5, "A", "open", "T1", none⟩, ⟨2, "B", "open", "T2", none⟩] (by decide)

/-- Round-tripping one record through its JSON object recovers it. -/
lemma ofJson_toJson (t : Task) : Task.ofJson (Task.toJson t) = some t := by
  cases t with
  | mk i ti st ca da => cases da <;> rfl

/-- C8: saving a store and loading it back reproduces the same sequence
of records: the file holds exactly the serialized records, and decoding
them yields the original tasks with all fields and order intact. -/
theorem c8_save_load_round_trip (ts : List Task) :
    _load (_save ts) = ts.map Task.toJson ∧
    decodeStore (_load (_save ts)) = ts := by
  refine ⟨rfl, ?_⟩
  show (ts.map Task.toJson).filterMap Task.ofJson = ts
  induction ts with
  | nil => rfl
  | cons t rest ih => simp [ofJson_toJson, ih]

/-- C10: the allocated id strictly exceeds every id in the store, even
ids a hand-edited file made zero or negative, so it never collides with
an existing id; but with only negative ids the result can be
non-positive. -/
theorem c10_next_id_fresh :
    (∀ ts : List Task, ∀ t ∈ ts, t.id < _next_id ts) ∧
    (∃ ts : List Task, (∀ t ∈ ts, t.id < 0) ∧ _next_id ts ≤ 0) := by
  refine ⟨fun ts t ht => id_lt_next_id ts t ht,
    ⟨[⟨-5, "N", "open", "T1", none⟩], ?_, ?_⟩⟩
  · intro t ht
    have he : t = (⟨-5, "N", "open", "T1", none⟩ : Task) := by simpa using ht
    rw [he]
    decide
  · decide

/-- Witness for C10: in a store whose only id is 7 the next id is
strictly larger than 7. -/
theorem c10_next_id_fresh_witness :
    (Task.mk 7 "A" "open" "T1" none).id
      < _next_id [Task.mk 7 "A" "open" "T1" none] :=
  c10_next_id_fresh.1 [Task.mk 7 "A" "open" "T1" none]
    (Task.mk 7 "A" "open" "T1" none) (by simp)

/-- C9: every command preserves the `done_at`/`status` invariant, and a
done task's exact record survives every command except a `delete`
aimed at its id. -/
theorem c9_invariant_terminal (c : Cmd) (ts : List Task) (h : WFstore ts) :
    WFstore (applyCmd c ts).tasks ∧
    (∀ t0 ∈ ts, t0.status = "done" →
      t0 ∈ (applyCmd c ts).tasks ∨ ∃ k, c = Cmd.delete k ∧ t0.id = k) := by
  cases c with
  | add title now =>
    constructor
    · intro t htm
      simp only [applyCmd, cmd_add] at htm
      rcases List.mem_append.1 htm with hl | hr
      · exact h t hl
      · have he : t = ⟨_next_id ts, title.trim, "open", now, none⟩ := by
          simpa using hr
        rw [he]
        have hne : ("open" : String) ≠ "done" := by decide
        exact ⟨fun hst => absurd hst hne, fun _ => rfl⟩
    · intro t0 ht0 _
      refine Or.inl ?_
      simp only [applyCmd, cmd_add]
      exact List.mem_append_left _ ht0
  | list args =>
    exact ⟨h, fun t0 ht0 _ => Or.inl ht0⟩
  | done tid now =>
    exact ⟨cmd_done_WF tid now ts h,
      fun t0 ht0 hst => Or.inl (cmd_done_keeps_done tid now ts t0 ht0 hst)⟩
  | delete k =>
    have hf : (applyCmd (Cmd.delete k) ts).tasks
        = ts.filter (fun t => t.id != k) := cmd_delete_tasks_eq_filter k ts
    constructor
    · intro t htm
      rw [hf] at htm
      exact h t (List.mem_of_mem_filter htm)
    · intro t0 ht0 hst
      by_cases hk : t0.id = k
      · exact Or.inr ⟨k, rfl, hk⟩
      · refine Or.inl ?_
        rw [hf]
        exact List.mem_filter.2 ⟨ht0, by simp [hk]⟩

/-- Witness for C9: completing id 1 in a well-formed one-task store
yields a well-formed store. -/
theorem c9_invariant_terminal_witness :
    WFstore (applyCmd (Cmd.done 1 "T2") [⟨1, "A", "open", "T1", none⟩]).tasks :=
  (c9_invariant_terminal (Cmd.done 1 "T2") [⟨1, "A", "open", "T1", none⟩]
    (by decide)).1

/-- The command sequence of the id-reuse scenario: add A, add B, delete
the task with the larger id, add C. -/
def idReuseCmds : List Cmd :=
  [Cmd.add "A" "T1", Cmd.add "B" "T2", Cmd.delete 2, Cmd.add "C" "T3"]

/-- C1 counterexample: starting from the empty store, the run
add A, add B, delete 2, add C assigns the ids 1, 2, 2: the third add
reassigns id 2 after the delete, so the assigned ids are neither
strictly increasing nor free of reuse. -/
theorem c1_ids_reused_counterexample :
    assignedIds idReuseCmds [] = [1, 2, 2] ∧
    ¬ List.Pairwise (fun a b : Int => a < b) (assignedIds idReuseCmds []) ∧
    ¬ (assignedIds idReuseCmds []).Nodup := by
  refine ⟨by decide, by decide, by decide⟩

/-- Ids assigned along an all-`add` run are strictly increasing and
bounded below by the starting store's next id. -/
lemma assignedIds_adds_mono (cs : List Cmd) :
    ∀ ts : List Task, (∀ c ∈ cs, ∃ title now, c = Cmd.add title now) →
      List.Pairwise (fun a b : Int => a < b) (assignedIds cs ts) ∧
      ∀ i ∈ assignedIds cs ts, _next_id ts ≤ i := by
  induction cs with
  | nil =>
    intro ts _
    exact ⟨List.Pairwise.nil, fun i hi => absurd hi (List.not_mem_nil i)⟩
  | cons c cs ih =>
    intro ts h
    obtain ⟨title, now, rfl⟩ := h c (List.mem_cons_self c cs)
    have hrest := ih (cmd_add title now ts).tasks
      (fun d hd => h d (List.mem_cons_of_mem _ hd))
    have hnext : _next_id (cmd_add title now ts).tasks = _next_id ts + 1 :=
      next_id_cmd_add title now ts
    have hshape : assignedIds (Cmd.add title now :: cs) ts
        = _next_id ts :: assignedIds cs (cmd_add title now ts).tasks := rfl
    constructor
    · rw [hshape]
      refine List.Pairwise.cons ?_ hrest.1
      intro i hi
      have hge := hrest.2 i hi
      omega
    · rw [hshape]
      intro i hi
      rcases List.mem_cons.1 hi with rfl | hi
      · exact le_refl _
      · have hge := hrest.2 i hi
        omega

/-- C1 (amended): for every sequence of `add` commands starting from the
empty store, the assigned ids are strictly increasing and never reused.
(With intervening deletes this fails: deleting the task holding the
maximal id lets the next `add` reuse that id.) -/
theorem c1_add_ids_increasing (cs : List Cmd)
    (h : ∀ c ∈ cs, ∃ title now, c = Cmd.add title now) :
    List.Pairwise (fun a b : Int => a < b) (assignedIds cs []) ∧
    (assignedIds cs []).Nodup := by
  have hp := (assignedIds_adds_mono cs [] h).1
  exact ⟨hp, hp.imp (fun hab => ne_of_lt hab)⟩

/-- Witness for C1: two adds from the empty store assign strictly
increasing ids. -/
theorem c1_add_ids_increasing_witness :
    List.Pairwise (fun a b : Int => a < b)
      (assignedIds [Cmd.add "A" "T1", Cmd.add "B" "T2"] []) := by
  refine (c1_add_ids_increasing [Cmd.add "A" "T1", Cmd.add "B" "T2"] ?_).1
  intro c hc
  rcases List.mem_cons.1 hc with rfl | hc
  · exact ⟨"A", "T1", rfl⟩
  rcases List.mem_cons.1 hc with rfl | hc
  · exact ⟨"B", "T2", rfl⟩
  · exact absurd hc (List.not_mem_nil c)

end TaskTracker
